import Mathlib

/-!
Verification of the time-dependent route-search core of `ChercheTrajet.py`
(train-journey search over a Neo4j timetable graph).

The Python code is shallowly embedded:

* wall-clock instants: the graph stores zero-padded `dd/mm/yyyy` date strings
  and `HH:MM` time strings; they are modelled structurally (`Date`, `Time`).
  `strptime`/`datetime` arithmetic is modelled by converting a date to its
  proleptic-Gregorian ordinal (Python's `date.toordinal`) and an instant to
  absolute minutes; all stored times are whole minutes, so durations
  (`total_seconds()/60`) are exact integers.
* the Cypher query of `get_neighbors` compares the stored strings with
  Neo4j's lexicographic string order; on zero-padded `dd/mm/yyyy` strings
  that order coincides with lexicographic order of `(day, month, year)`,
  and on `HH:MM` strings with lexicographic order of `(hour, minute)`
  (`dateStrLe`, `timeStrLe`).  `ORDER BY r.datedepart, r.hdepart` is a sort
  by those string keys, nulls last; tie order among equal keys is left to
  the store order (Neo4j does not specify it), modelled by a stable sort.
* Python `None` is `Option.none`; a statement that would raise
  (`strptime(None ..)`, an unbound variable) is modelled by a `none` /
  `crash` result.
* `dijkstra`'s loop is a fuelled small-step interpreter (`dijkstraStep`,
  `dijkstraLoop`); `none` means the fuel ran out, which is a modelling
  artifact (termination is proved below).  Python object identity of `Node`
  objects (used by `in open_set` / `list.remove`) is modelled by a unique
  `id` stamped on every created node.  The stream of store queries issued
  by the loop is recorded in the search state for observation.
-/

/-- A calendar date, as parsed by `strptime "%d/%m/%Y"` from the zero-padded
`dd/mm/yyyy` strings stored in the graph. -/
structure Date where
  day : Nat
  month : Nat
  year : Nat
deriving DecidableEq, Repr

/-- A time of day, as parsed by `strptime "%H:%M"` from the `HH:MM` strings
stored in the graph. -/
structure Time where
  hour : Nat
  minute : Nat
deriving DecidableEq, Repr

/-- Gregorian leap-year test (as in Python's `datetime`). -/
def isLeap (y : Nat) : Bool :=
  (y % 4 == 0 && y % 100 != 0) || y % 400 == 0

/-- Number of days of month `m` of year `y`. -/
def daysInMonth (y m : Nat) : Nat :=
  if m = 2 then (if isLeap y then 29 else 28)
  else if m = 4 ∨ m = 6 ∨ m = 9 ∨ m = 11 then 30
  else 31

/-- Days in year `y` strictly before month `m`. -/
def daysBeforeMonth (y m : Nat) : Nat :=
  ((List.range (m - 1)).map (fun i => daysInMonth y (i + 1))).sum

/-- Python's `date.toordinal`: day number in the proleptic Gregorian
calendar, with 01/01/0001 being day 1. -/
def Date.toOrdinal (d : Date) : Nat :=
  365 * (d.year - 1) + (d.year - 1) / 4 - (d.year - 1) / 100 + (d.year - 1) / 400
    + daysBeforeMonth d.year d.month + d.day

/-- A `datetime` as an absolute number of minutes; `datetime` comparison,
subtraction (`total_seconds()/60`) and `timedelta(days=k)` shifts all factor
through this map. -/
def toMinutes (d : Date) (t : Time) : Nat :=
  1440 * d.toOrdinal + 60 * t.hour + t.minute

/-- The computation `Neo4jGraph.calculate_duration` performs once both time
components are known to be present (everything after its `None` check). -/
def duration_core (departure_date : Date) (departure_time : Time)
    (arrival_date : Date) (arrival_time : Time) : Int :=
  let departure_datetime : Int := toMinutes departure_date departure_time
  let arrival_datetime : Int := toMinutes arrival_date arrival_time
  let day_difference : Int := (arrival_date.toOrdinal : Int) - (departure_date.toOrdinal : Int)
  -- `if day_difference < 0: arrival_datetime += timedelta(days=-day_difference)`
  let arrival_datetime :=
    if day_difference < 0 then arrival_datetime + 1440 * (-day_difference) else arrival_datetime
  -- `next_train_departure = departure_datetime + timedelta(days=day_difference)`
  let next_train_departure := departure_datetime + 1440 * day_difference
  -- `if arrival_datetime > next_train_departure: arrival_datetime = next_train_departure`
  let arrival_datetime :=
    if next_train_departure < arrival_datetime then next_train_departure else arrival_datetime
  -- `(arrival_datetime - departure_datetime).total_seconds() / 60`
  arrival_datetime - departure_datetime

/-- `Neo4jGraph.calculate_duration`.  Returns `some 0` when either *time*
component is `None` (the function's first check); if a time is present but a
*date* is `None`, `strptime` raises a `TypeError`, modelled by `none`. -/
def calculate_duration (departure_date : Option Date) (departure_time : Option Time)
    (arrival_date : Option Date) (arrival_time : Option Time) : Option Int :=
  if departure_time.isNone || arrival_time.isNone then some 0
  else
    match departure_date, departure_time, arrival_date, arrival_time with
    | some dd, some dt, some ad, some h => some (duration_core dd dt ad h)
    | _, _, _, _ => none

/-- `Neo4jGraph.calculate_total_time`: raw elapsed minutes between two
instants, no overnight correction or clamping (`int` truncation is exact
because stored times are whole minutes). -/
def calculate_total_time (departure_date : Date) (departure_time : Time)
    (arrival_date : Date) (arrival_time : Time) : Int :=
  (toMinutes arrival_date arrival_time : Int) - (toMinutes departure_date departure_time : Int)

/-- A `MOOVE` relationship of the graph: one stored connection.  The
properties are the strings written by the loader; a property that was never
set reads back as `null` (`none`). -/
structure Conn where
  orig : String
  dest : String
  datedepart : Option Date
  hdepart : Option Time
  datearrive : Option Date
  harrive : Option Time
  numtrain : String
deriving DecidableEq, Repr

/-- Neo4j string `<=` on two stored zero-padded `dd/mm/yyyy` strings:
lexicographic on the characters, hence on `(day, month, year)`. -/
def dateStrLe (a b : Date) : Bool :=
  if a.day ≠ b.day then a.day < b.day
  else if a.month ≠ b.month then a.month < b.month
  else a.year ≤ b.year

/-- Neo4j string `<=` on two stored `HH:MM` strings: lexicographic on the
characters, hence on `(hour, minute)` — which is chronological order. -/
def timeStrLe (a b : Time) : Bool :=
  if a.hour ≠ b.hour then a.hour < b.hour
  else a.minute ≤ b.minute

/-- The `WHERE` clause of `get_neighbors`'s Cypher query:
`n.nom = $name AND r.datedepart >= $departure_date AND r.hdepart >= $departure_time`.
A `null` property fails any comparison (Cypher three-valued logic). -/
def whereClause (name : String) (departure_date : Date) (departure_time : Time)
    (c : Conn) : Bool :=
  c.orig == name
    && (match c.datedepart with
        | some cd => dateStrLe departure_date cd
        | none => false)
    && (match c.hdepart with
        | some ct => timeStrLe departure_time ct
        | none => false)

/-- Lexicographic `<=` on lists of naturals (the generic order underlying
the `ORDER BY` sort keys). -/
def natListLe : List Nat → List Nat → Bool
  | [], _ => true
  | _ :: _, [] => false
  | a :: as, b :: bs => if a < b then true else if b < a then false else natListLe as bs

/-- Sort key of `r.datedepart` for `ORDER BY` (ascending, nulls last). -/
def dateKey : Option Date → List Nat
  | none => [1]
  | some d => [0, d.day, d.month, d.year]

/-- Sort key of `r.hdepart` for `ORDER BY` (ascending, nulls last). -/
def timeKey : Option Time → List Nat
  | none => [1]
  | some t => [0, t.hour, t.minute]

/-- Full sort key of `ORDER BY r.datedepart, r.hdepart`. -/
def connKey (c : Conn) : List Nat := dateKey c.datedepart ++ timeKey c.hdepart

/-- The relation by which `ORDER BY r.datedepart, r.hdepart` sorts the
matched relationships. -/
def connLe (a b : Conn) : Prop := natListLe (connKey a) (connKey b) = true

instance : DecidableRel connLe := fun a b =>
  inferInstanceAs (Decidable (natListLe (connKey a) (connKey b) = true))

/-- The record stream produced by lines 94–103 of `get_neighbors`: run the
Cypher query (filter by the `WHERE` clause, sort by `ORDER BY`), then skip
every record with a missing departure/arrival date or time (`continue`). -/
def neighbors_query (store : List Conn) (node_name : String)
    (departure_date : Date) (departure_time : Time) : List Conn :=
  ((store.filter (whereClause node_name departure_date departure_time)).insertionSort connLe).filter
    (fun c => c.datedepart.isSome && c.hdepart.isSome && c.datearrive.isSome && c.harrive.isSome)

/-- The payload of a surviving record, as stored into a Python `Node`
object: `Node(record["name"], ..., record["train_number"])` where
`record["name"]` is `neighbor.nom`, i.e. the connection's destination. -/
structure NodeData where
  name : String
  departure_date : Date
  departure_time : Time
  arrival_date : Date
  arrival_time : Time
  train_number : String
deriving DecidableEq, Repr

/-- Extract the `NodeData` of a record known to have all four fields. -/
def recOf (c : Conn) : Option NodeData :=
  match c.datedepart, c.hdepart, c.datearrive, c.harrive with
  | some dd, some dt, some ad, some h => some ⟨c.dest, dd, dt, ad, h, c.numtrain⟩
  | _, _, _, _ => none

/-- `Neo4jGraph.get_neighbors`: the generator's yielded
`(neighbor, neighbor_distance)` pairs, in order.  A record is yielded only
when `next_train_departure > current_arrival` (both parsed with `strptime`);
the distance is `calculate_duration` of the *passed* departure instant and
the record's arrival instant (all four fields are present here, so
`calculate_duration` is `duration_core`). -/
def get_neighbors (store : List Conn) (node_name : String)
    (departure_date : Date) (departure_time : Time) : List (NodeData × Int) :=
  ((neighbors_query store node_name departure_date departure_time).filterMap recOf).filterMap
    (fun neighbor =>
      let next_train_departure := toMinutes neighbor.departure_date neighbor.departure_time
      let current_arrival := toMinutes departure_date departure_time
      if current_arrival < next_train_departure then
        some (neighbor,
          duration_core departure_date departure_time neighbor.arrival_date neighbor.arrival_time)
      else none)

/-- Distances in `dijkstra` are Python floats: `float('inf')` initially,
finite sums of durations otherwise. -/
inductive Distance where
  | inf
  | fin (v : Int)
deriving DecidableEq, Repr

/-- Float `<` on distances. -/
def Distance.blt : Distance → Distance → Bool
  | .fin a, .fin b => a < b
  | .fin _, .inf => true
  | .inf, _ => false

/-- `current_node.distance + neighbor_distance`. -/
def Distance.addInt : Distance → Int → Distance
  | .inf, _ => .inf
  | .fin a, b => .fin (a + b)

/-- A Python `Node` object.  Python compares these by object identity
(`Node` defines no `__eq__`), so each created object carries a unique `id`;
`parent` is the back-reference set by `dijkstra`.  A node is only ever
mutated while no other node refers to it, so value semantics for the
`parent` snapshot is faithful. -/
inductive Node where
  | mk (id : Nat) (data : NodeData) (distance : Distance) (parent : Option Node)

def Node.id : Node → Nat
  | .mk i _ _ _ => i

def Node.data : Node → NodeData
  | .mk _ d _ _ => d

def Node.distance : Node → Distance
  | .mk _ _ dist _ => dist

def Node.parent : Node → Option Node
  | .mk _ _ _ p => p

def Node.name (n : Node) : String := n.data.name

def Node.departure_date (n : Node) : Date := n.data.departure_date

def Node.departure_time (n : Node) : Time := n.data.departure_time

def Node.arrival_date (n : Node) : Date := n.data.arrival_date

def Node.arrival_time (n : Node) : Time := n.data.arrival_time

/-- One comparison step of `min(open_set, key=lambda x: x.distance)`. -/
def pickMin (best y : Node) : Node :=
  if Distance.blt y.distance best.distance then y else best

/-- `min(open_set, key=lambda x: x.distance)`: Python's `min` returns the
first element attaining the minimum. -/
def selectMin : List Node → Option Node
  | [] => none
  | x :: xs => some (xs.foldl pickMin x)

/-- `open_set.remove(current_node)`: removes the first element `==` (object
identity) to the argument. -/
def removeNode (n : Node) : List Node → List Node
  | [] => []
  | x :: xs => if x.id = n.id then xs else x :: removeNode n xs

/-- The back-reference walk of lines 196–199: `[current, parent, ...]`
(reversed by the caller). -/
def Node.ancestry : Node → List Node
  | .mk i d dist none => [.mk i d dist none]
  | .mk i d dist (some p) => .mk i d dist (some p) :: p.ancestry

/-- One iteration of the `for neighbor, neighbor_distance in ...` body
(lines 203–222), threading the live `open_set` and the id supply.  The
fresh `Node` object has distance `inf` and no parent, so the relaxation
test always succeeds for it and the `else` update branch (which looks the
fresh object up in `open_set` by identity) never changes anything. -/
def relaxNeighbor (current : Node) (closed_set : List String)
    (acc : List Node × Nat) (nb : NodeData × Int) : List Node × Nat :=
  let open_set := acc.1
  let next_id := acc.2
  -- `if neighbor.name in closed_set: continue`
  if closed_set.contains nb.1.name then acc
  else
    -- the fresh object yielded by `get_neighbors`
    let neighbor : Node := .mk next_id nb.1 .inf none
    let tentative_distance : Distance := Distance.addInt current.distance nb.2
    if Distance.blt tentative_distance neighbor.distance then
      -- `neighbor.parent = current_node; neighbor.distance = tentative_distance`
      let neighbor2 : Node := .mk next_id nb.1 tentative_distance (some current)
      -- `if neighbor not in open_set: open_set.append(neighbor)`
      if open_set.any (fun x => x.id == neighbor2.id) then (open_set, next_id + 1)
      else (open_set ++ [neighbor2], next_id + 1)
    else
      -- `if neighbor in open_set: ...` — update the identical object in place
      (open_set.map (fun x =>
        if x.id == neighbor.id && Distance.blt tentative_distance x.distance then
          .mk x.id x.data tentative_distance (some current)
        else x), next_id + 1)

/-- A store query issued by the search: `(node_name, departure_date,
departure_time)` as passed to `get_neighbors`. -/
abbrev Query := String × Date × Time

/-- The mutable state of `dijkstra`'s loop.  `queries` records each call to
`graph.get_neighbors` (an observation channel; the Python code has no such
variable). -/
structure SearchState where
  open_set : List Node
  closed_set : List String
  next_id : Nat
  queries : List Query

inductive StepResult where
  | halt (result : Option (List Node))
  | next (s : SearchState)

/-- One iteration of `while open_set:` (lines 191–222). -/
def dijkstraStep (store : List Conn) (goal_node_name : String)
    (s : SearchState) : StepResult :=
  match selectMin s.open_set with
  | none => .halt none  -- the `while` guard fails: `return None`
  | some current_node =>
    let open1 := removeNode current_node s.open_set
    if current_node.name == goal_node_name then
      .halt (some current_node.ancestry.reverse)  -- `return path[::-1]`
    else
      let closed1 := current_node.name :: s.closed_set
      let nbs := get_neighbors store current_node.name
        current_node.departure_date current_node.departure_time
      let on' := nbs.foldl (relaxNeighbor current_node closed1) (open1, s.next_id)
      .next { open_set := on'.1, closed_set := closed1, next_id := on'.2,
              queries := s.queries ++
                [(current_node.name, current_node.departure_date, current_node.departure_time)] }

/-- The loop, with fuel.  `none` = fuel exhausted (modelling artifact);
`some (result, queries)` = the Python function returned `result` after
issuing `queries`. -/
def dijkstraLoop (store : List Conn) (goal_node_name : String) :
    Nat → SearchState → Option (Option (List Node) × List Query)
  | 0, _ => none
  | fuel + 1, s =>
    match dijkstraStep store goal_node_name s with
    | .halt r => some (r, s.queries)
    | .next s' => dijkstraLoop store goal_node_name fuel s'

/-- Lines 183–189: the start node (`distance = 0`) and the fresh
`open_set` / `closed_set`. -/
def dijkstraInit (start_node_name : String) (departure_date : Date)
    (departure_time : Time) (arrival_date : Date) (arrival_time : Time) : SearchState :=
  let start_node : Node :=
    .mk 0 ⟨start_node_name, departure_date, departure_time, arrival_date, arrival_time, ""⟩
      (.fin 0) none
  { open_set := [start_node], closed_set := [], next_id := 1, queries := [] }

/-- `dijkstra(start, goal, departure_date, departure_time, arrival_date,
arrival_time, graph)`, run with `fuel` iterations allowed. -/
def dijkstra (fuel : Nat) (store : List Conn) (start_node_name goal_node_name : String)
    (departure_date : Date) (departure_time : Time)
    (arrival_date : Date) (arrival_time : Time) : Option (Option (List Node) × List Query) :=
  dijkstraLoop store goal_node_name fuel
    (dijkstraInit start_node_name departure_date departure_time arrival_date arrival_time)

/-- Outcome of the arrival-time route-assembly block of `main`
(lines 446–490): the selected `min_path` (a path with its score appended),
the no-candidate report, or a crash (`NameError`: the loop over `Liste`
found no sublist containing `smallest_positive`, so `index` is never
bound and `Liste[index]` raises). -/
inductive FitOutcome where
  | found (min_path : List Node × Int)
  | notFound
  | crash

/-- The body of the loop of lines 450–455: fold one `number` of `L` into
the running `smallest_positive`. -/
def sp_step (sp : Option Int) (number : Int) : Option Int :=
  if 0 < number then
    match sp with
    | none => some number
    | some m => if number < m then some number else sp
  else sp

/-- Lines 448–455: the smallest strictly positive element of `L`
(`None` if there is none). -/
def smallest_positive (L : List Int) : Option Int :=
  L.foldl sp_step none

/-- Lines 446–465: the selection itself.  `Liste` holds, per successful
candidate, the path with its score `temps` appended (modelled as a pair);
`L` holds the scores.  `smallest_positive in sous_liste` compares an
`int`/`None` against `Node` objects and the final score, so it holds iff
the score equals `smallest_positive`. -/
def pick_min_path (Liste : List (List Node × Int)) (L : List Int) : FitOutcome :=
  if L.isEmpty then .notFound  -- `else: print("Aucun train trouvé ...")`
  else
    let sp := smallest_positive L
    match Liste.find? (fun sl => sp == some sl.2) with
    | some sl => .found sl      -- `min_path = Liste[index]`
    | none => .crash            -- `index` unbound → `NameError`

/-- The `open_set` carried by a step result (`[]` after halting); used to
observe the frontier along a run. -/
def StepResult.openOf : StepResult → List Node
  | .halt _ => []
  | .next s => s.open_set

/-- Modelled from the spec's words (claim C9): the duration after the
negative-`day_difference` shift and the clamp to exactly
`departure + day_difference` days. -/
def duration_minutes_claimed (departure_date : Date) (departure_time : Time)
    (arrival_date : Date) (arrival_time : Time) : Int :=
  let dep : Int := toMinutes departure_date departure_time
  let arr : Int := toMinutes arrival_date arrival_time
  let day_difference : Int := (arrival_date.toOrdinal : Int) - (departure_date.toOrdinal : Int)
  let corrected := if day_difference < 0 then arr + 1440 * (-day_difference) else arr
  min corrected (dep + 1440 * day_difference) - dep

/-- Modelled from the spec's words (claim C8): a connection whose departure
instant — departure date *plus* time, as one combined instant — is on or
after the given instant. -/
def departsOnOrAfter (d : Date) (t : Time) (c : Conn) : Bool :=
  match c.datedepart, c.hdepart with
  | some cd, some ct => toMinutes d t ≤ toMinutes cd ct
  | _, _ => false

/-- Modelled from the amended claim C8: the record selection actually
performed — origin matches, the departure date *string* is `>=` the given
date string, the departure time *string* is `>=` the given time string
(each compared on its own), and all four date/time fields are present. -/
def selectedAmended (name : String) (d : Date) (t : Time) (c : Conn) : Prop :=
  c.orig = name
    ∧ (∃ cd, c.datedepart = some cd ∧ dateStrLe d cd = true)
    ∧ (∃ ct, c.hdepart = some ct ∧ timeStrLe t ct = true)
    ∧ c.datearrive.isSome = true ∧ c.harrive.isSome = true

/-- Modelled from the amended claim C3: the labels appended by one
expansion — one fresh label per yielded neighbor whose station is not
settled, carrying cumulative cost `current.distance + edge cost` and a
back-reference to `current`, with consecutive fresh identities. -/
def freshLabels (current : Node) (closed_set : List String) :
    Nat → List (NodeData × Int) → List Node
  | _, [] => []
  | nid, nb :: rest =>
    if closed_set.contains nb.1.name then freshLabels current closed_set nid rest
    else
      .mk nid nb.1 (Distance.addInt current.distance nb.2) (some current)
        :: freshLabels current closed_set (nid + 1) rest

/-- Connections of the store departing strictly after instant `i`
(termination-measure infrastructure). -/
def connAfter (i : Nat) (c : Conn) : Bool :=
  match c.datedepart, c.hdepart with
  | some cd, some ct => i < toMinutes cd ct
  | _, _ => false

/-- How many stored connections still depart strictly after instant `i`. -/
def budget (store : List Conn) (i : Nat) : Nat :=
  (store.filter (connAfter i)).length

/-- The departure instant a node hands to `get_neighbors` when expanded. -/
def Node.instant (n : Node) : Nat := toMinutes n.departure_date n.departure_time

/-- Termination weight of one frontier label. -/
def nodeWeight (store : List Conn) (n : Node) : Nat :=
  (store.length + 1) ^ (budget store n.instant + 1)

/-- Termination measure of a frontier: total weight of its labels. -/
def measureOf (store : List Conn) (l : List Node) : Nat :=
  (l.map (nodeWeight store)).sum

/-- `open_set` ids are pairwise distinct and below the id supply — the
object-identity invariant of the embedding. -/
def IdsOk (open_set : List Node) (next_id : Nat) : Prop :=
  (open_set.map Node.id).Nodup ∧ ∀ n ∈ open_set, n.id < next_id

/-- Example store (claims C2/C10 evidence): two legs A→B→C where the train
out of B leaves at 11:00, *before* the first leg arrives at B (12:00). -/
def exStoreC2 : List Conn :=
  [⟨"A", "B", some ⟨1, 6, 2024⟩, some ⟨10, 0⟩, some ⟨1, 6, 2024⟩, some ⟨12, 0⟩, "T1"⟩,
   ⟨"B", "C", some ⟨1, 6, 2024⟩, some ⟨11, 0⟩, some ⟨1, 6, 2024⟩, some ⟨11, 30⟩, "T2"⟩]

/-- Example store (claim C3): two distinct connections from A to the same
station B. -/
def exStoreC3 : List Conn :=
  [⟨"A", "B", some ⟨1, 6, 2024⟩, some ⟨10, 0⟩, some ⟨1, 6, 2024⟩, some ⟨11, 0⟩, "T1"⟩,
   ⟨"A", "B", some ⟨1, 6, 2024⟩, some ⟨10, 30⟩, some ⟨1, 6, 2024⟩, some ⟨11, 30⟩, "T2"⟩]

/-- Claim C8 examples: four connections out of O. -/
def connW : Conn :=
  ⟨"O", "P", some ⟨1, 7, 2024⟩, some ⟨9, 0⟩, some ⟨1, 7, 2024⟩, some ⟨10, 0⟩, "W"⟩

def connZ : Conn :=
  ⟨"O", "P", some ⟨2, 6, 2024⟩, some ⟨8, 0⟩, some ⟨2, 6, 2024⟩, some ⟨9, 0⟩, "Z"⟩

def connX : Conn :=
  ⟨"O", "P", some ⟨15, 6, 2024⟩, some ⟨8, 0⟩, some ⟨15, 6, 2024⟩, some ⟨9, 0⟩, "X"⟩

def connY : Conn :=
  ⟨"O", "P", some ⟨1, 7, 2024⟩, some ⟨7, 0⟩, some ⟨1, 7, 2024⟩, some ⟨8, 0⟩, "Y"⟩

def exStoreC8 : List Conn := [connW, connZ, connX, connY]

/-- A dummy single-node path for the selection examples. -/
def dummyPath (i : Nat) : List Node :=
  [.mk i ⟨"X", ⟨1, 6, 2024⟩, ⟨8, 0⟩, ⟨1, 6, 2024⟩, ⟨9, 0⟩, "T"⟩ (.fin 0) none]

/-- Claim C4's example candidates, with scores `[45, -10, 12, 90]`. -/
def exListeC4 : List (List Node × Int) :=
  [(dummyPath 0, 45), (dummyPath 1, -10), (dummyPath 2, 12), (dummyPath 3, 90)]

/-- The start label of the `exStoreC3` run (witness input for claim C3). -/
def exNodeA : Node :=
  .mk 0 ⟨"A", ⟨1, 6, 2024⟩, ⟨9, 0⟩, ⟨1, 6, 2024⟩, ⟨9, 0⟩, ""⟩ (.fin 0) none

/-! ## Theorems -/

/-- C1: the code, evaluated at the spec's own scenario.  A connection
departs 23:50 on 01/06/2024 with stored arrival 00:20 on the *same* date:
`day_difference = 0`, so neither the shift (which only fires when the
arrival *date* precedes the departure date) nor the clamp (00:20 is not
after 23:50) applies, and `calculate_duration` returns −1410 minutes — not
the claimed +30, and negative. -/
theorem claim_C1_code_eval :
    calculate_duration (some ⟨1, 6, 2024⟩) (some ⟨23, 50⟩) (some ⟨1, 6, 2024⟩) (some ⟨0, 20⟩)
      = some (-1410) := by decide

/-- C5: the code, evaluated at one candidate whose journey lands 45 minutes
*after* the desired arrival (score −45).  `smallest_positive` is `None`,
the index-search loop matches nothing, and `Liste[index]` raises a
`NameError` (`crash`) instead of reporting the claimed `NotFound`. -/
theorem claim_C5_code_eval :
    pick_min_path [(dummyPath 0, -45)] [-45] = .crash := rfl

/-- C6: if either time component is `None`, `calculate_duration` returns
exactly 0, whatever the dates are. -/
theorem claim_C6 (departure_date : Option Date) (departure_time : Option Time)
    (arrival_date : Option Date) (arrival_time : Option Time)
    (h : departure_time = none ∨ arrival_time = none) :
    calculate_duration departure_date departure_time arrival_date arrival_time = some 0 := by
  rcases h with h | h <;> subst h <;> simp [calculate_duration]

theorem claim_C6_witness :
    ((none : Option Time) = none ∨ (some ⟨10, 0⟩ : Option Time) = none) ∧
      calculate_duration (some ⟨1, 6, 2024⟩) none (some ⟨2, 6, 2024⟩) (some ⟨10, 0⟩) = some 0 :=
  ⟨Or.inl rfl, claim_C6 (some ⟨1, 6, 2024⟩) none (some ⟨2, 6, 2024⟩) (some ⟨10, 0⟩) (Or.inl rfl)⟩

/-- C9: on present inputs, `calculate_duration` is exactly the claimed
mechanism — shift the arrival forward by `-day_difference` days when
`day_difference` is negative, clamp down to exactly
`departure + day_difference` days (the *original* difference), and return
the elapsed minutes from departure to that corrected, clamped arrival. -/
theorem claim_C9 (departure_date : Date) (departure_time : Time)
    (arrival_date : Date) (arrival_time : Time) :
    calculate_duration (some departure_date) (some departure_time)
        (some arrival_date) (some arrival_time)
      = some (duration_minutes_claimed departure_date departure_time arrival_date arrival_time) := by
  have hcore : duration_core departure_date departure_time arrival_date arrival_time
      = duration_minutes_claimed departure_date departure_time arrival_date arrival_time := by
    unfold duration_core duration_minutes_claimed
    dsimp only
    split_ifs <;> omega
  simp [calculate_duration, hcore]

/-- C7: with origin equal to destination, the very first iteration pops the
start node, matches the goal, and returns the single-node path of cost 0 —
no store query is issued (the query log is empty). -/
theorem claim_C7 (fuel : Nat) (store : List Conn) (A : String)
    (departure_date : Date) (departure_time : Time)
    (arrival_date : Date) (arrival_time : Time) :
    dijkstra (fuel + 1) store A A departure_date departure_time arrival_date arrival_time
      = some (some [.mk 0 ⟨A, departure_date, departure_time, arrival_date, arrival_time, ""⟩
          (.fin 0) none], []) := by
  simp [dijkstra, dijkstraInit, dijkstraLoop, dijkstraStep, selectMin,
    Node.name, Node.data, Node.ancestry]

/-- C2: the code, traced on `exStoreC2` (A→B dep 10:00 arr 12:00, then
B→C dep 11:00).  Expanding the B label, the store is queried with instant
01/06 10:00 — the label's *departure* time — not its arrival time 12:00;
consequently the 11:00 train out of B (which leaves before the searcher
arrives there) is returned and used in the final path A→B→C. -/
theorem claim_C2_code_eval :
    (dijkstra 10 exStoreC2 "A" "C" ⟨1, 6, 2024⟩ ⟨9, 50⟩ ⟨1, 6, 2024⟩ ⟨9, 50⟩).map
        (fun r => (r.1.map (List.map (fun n => (n.name, n.departure_time, n.arrival_time))), r.2))
      = some (some [("A", ⟨9, 50⟩, ⟨9, 50⟩), ("B", ⟨10, 0⟩, ⟨12, 0⟩), ("C", ⟨11, 0⟩, ⟨11, 30⟩)],
          [("A", ⟨1, 6, 2024⟩, ⟨9, 50⟩), ("B", ⟨1, 6, 2024⟩, ⟨10, 0⟩)]) := by rfl

/-- C3, counterexample: on `exStoreC3` (two connections A→B), the first
iteration of the loop — started from `dijkstra`'s own initial state —
leaves the frontier holding *two* live labels for station B, so the
frontier does not keep at most one live label per station. -/
theorem claim_C3_counterexample :
    ((dijkstraStep exStoreC3 "Z" (dijkstraInit "A" ⟨1, 6, 2024⟩ ⟨9, 0⟩ ⟨1, 6, 2024⟩ ⟨9, 0⟩)).openOf.countP
        (fun n => n.name == "B")) = 2 := by decide

/-- C8, counterexample: querying `exStoreC8` from O not before
01/06/2024 07:30, the selection returns `[connW, connZ, connX]`: `connY`
(departing 01/07/2024 at 07:00, a combined instant well after the given
one, but with an earlier clock time) is excluded, and the result starts
with `connW` (01/07 09:00) even though `connZ` (02/06 08:00) departs
chronologically earlier — so the selection is neither "departure instant
on or after the given instant" nor ordered by departure instant. -/
theorem claim_C8_counterexample :
    neighbors_query exStoreC8 "O" ⟨1, 6, 2024⟩ ⟨7, 30⟩ = [connW, connZ, connX]
      ∧ connY ∈ exStoreC8
      ∧ departsOnOrAfter ⟨1, 6, 2024⟩ ⟨7, 30⟩ connY = true
      ∧ connY ∉ neighbors_query exStoreC8 "O" ⟨1, 6, 2024⟩ ⟨7, 30⟩
      ∧ toMinutes ⟨2, 6, 2024⟩ ⟨8, 0⟩ < toMinutes ⟨1, 7, 2024⟩ ⟨9, 0⟩ := by
  refine ⟨by decide, by decide, by decide, by decide, by decide⟩

/-- `sp_step` on a positive number and an empty accumulator. -/
theorem sp_step_pos_none {x : Int} (hx : 0 < x) : sp_step none x = some x := by
  simp [sp_step, hx]

/-- `sp_step` on a positive number and a set accumulator. -/
theorem sp_step_pos_some {x b : Int} (hx : 0 < x) :
    sp_step (some b) x = if x < b then some x else some b := by
  simp [sp_step, hx]

/-- `sp_step` ignores non-positive numbers. -/
theorem sp_step_nonpos {acc : Option Int} {x : Int} (hx : ¬0 < x) : sp_step acc x = acc := by
  simp [sp_step, hx]

/-- Every value the `smallest_positive` fold holds is strictly positive. -/
theorem sp_foldl_pos :
    ∀ (L : List Int) (acc : Option Int), (∀ a, acc = some a → 0 < a) →
      ∀ m, L.foldl sp_step acc = some m → 0 < m := by
  intro L
  induction L with
  | nil => intro acc hacc m hm; exact hacc m hm
  | cons x xs ih =>
    intro acc hacc m hm
    rw [List.foldl_cons] at hm
    refine ih (sp_step acc x) ?_ m hm
    intro a ha
    by_cases hx : 0 < x
    · cases acc with
      | none => rw [sp_step_pos_none hx] at ha; cases ha; exact hx
      | some b =>
        rw [sp_step_pos_some hx] at ha
        split_ifs at ha
        · cases ha; exact hx
        · exact hacc a ha
    · rw [sp_step_nonpos hx] at ha; exact hacc a ha

/-- The fold's value only ever comes from the list or the accumulator. -/
theorem sp_foldl_mem :
    ∀ (L : List Int) (acc : Option Int) (m : Int),
      L.foldl sp_step acc = some m → m ∈ L ∨ acc = some m := by
  intro L
  induction L with
  | nil => intro acc m hm; exact Or.inr hm
  | cons x xs ih =>
    intro acc m hm
    rw [List.foldl_cons] at hm
    rcases ih (sp_step acc x) m hm with h | h
    · exact Or.inl (List.mem_cons_of_mem x h)
    · by_cases hx : 0 < x
      · cases acc with
        | none =>
          rw [sp_step_pos_none hx] at h; cases h
          exact Or.inl (List.mem_cons_self x xs)
        | some b =>
          rw [sp_step_pos_some hx] at h
          split_ifs at h
          · cases h; exact Or.inl (List.mem_cons_self x xs)
          · exact Or.inr h
      · rw [sp_step_nonpos hx] at h; exact Or.inr h

/-- The fold's value never exceeds the accumulator it started from. -/
theorem sp_foldl_le_acc :
    ∀ (L : List Int) (a m : Int),
      L.foldl sp_step (some a) = some m → m ≤ a := by
  intro L
  induction L with
  | nil => intro a m hm; cases hm; exact le_refl _
  | cons x xs ih =>
    intro a m hm
    rw [List.foldl_cons] at hm
    by_cases hx : 0 < x
    · rw [sp_step_pos_some hx] at hm
      split_ifs at hm with hxa
      · exact le_trans (ih x m hm) (le_of_lt hxa)
      · exact ih a m hm
    · rw [sp_step_nonpos hx] at hm; exact ih a m hm

/-- The fold's value is a lower bound of the positive elements of the
list. -/
theorem sp_foldl_min :
    ∀ (L : List Int) (acc : Option Int) (m : Int),
      L.foldl sp_step acc = some m → ∀ x ∈ L, 0 < x → m ≤ x := by
  intro L
  induction L with
  | nil => intro acc m _ x hx; cases hx
  | cons y ys ih =>
    intro acc m hm x hx hxpos
    rw [List.foldl_cons] at hm
    rcases List.mem_cons.mp hx with rfl | hx'
    · -- the head: after one step the accumulator is `some v` with `v ≤ x`
      have hstep : ∃ v, sp_step acc x = some v ∧ v ≤ x := by
        cases acc with
        | none => exact ⟨x, sp_step_pos_none hxpos, le_refl x⟩
        | some b =>
          rw [sp_step_pos_some hxpos]
          split_ifs with h
          · exact ⟨x, rfl, le_refl x⟩
          · exact ⟨b, rfl, le_of_not_lt h⟩
      obtain ⟨v, hv, hvx⟩ := hstep
      rw [hv] at hm
      exact le_trans (sp_foldl_le_acc ys v m hm) hvx
    · exact ih (sp_step acc y) m hm x hx' hxpos

/-- If the list has a positive element (or the accumulator is set), the
fold produces a value. -/
theorem sp_foldl_isSome :
    ∀ (L : List Int) (acc : Option Int),
      ((∃ x ∈ L, 0 < x) ∨ acc.isSome = true) → (L.foldl sp_step acc).isSome = true := by
  intro L
  induction L with
  | nil =>
    intro acc h
    rcases h with ⟨x, hx, _⟩ | h
    · cases hx
    · exact h
  | cons y ys ih =>
    intro acc h
    rw [List.foldl_cons]
    have hpres : acc.isSome = true → (sp_step acc y).isSome = true := by
      intro hacc
      cases acc with
      | none => cases hacc
      | some b =>
        by_cases hy : 0 < y
        · rw [sp_step_pos_some hy]; split_ifs <;> rfl
        · rw [sp_step_nonpos hy]; rfl
    rcases h with ⟨x, hx, hxpos⟩ | hacc
    · rcases List.mem_cons.mp hx with rfl | hx'
      · refine ih (sp_step acc x) (Or.inr ?_)
        cases acc with
        | none => rw [sp_step_pos_none hxpos]; rfl
        | some b => rw [sp_step_pos_some hxpos]; split_ifs <;> rfl
      · exact ih (sp_step acc y) (Or.inl ⟨x, hx', hxpos⟩)
    · exact ih (sp_step acc y) (Or.inr (hpres hacc))

/-- C4: whenever candidate scores are kept in lockstep with the candidate
paths (`L = Liste.map (·.2)`, as `main` builds them) and at least one score
is strictly positive, the block selects a candidate whose score is strictly
positive and minimal among the strictly positive scores. -/
theorem claim_C4 (Liste : List (List Node × Int)) (L : List Int)
    (hL : L = Liste.map (fun sl => sl.2)) (hpos : ∃ x ∈ L, 0 < x) :
    ∃ sl, pick_min_path Liste L = .found sl ∧ sl ∈ Liste ∧ 0 < sl.2 ∧
      ∀ x ∈ L, 0 < x → sl.2 ≤ x := by
  obtain ⟨m, hsp⟩ := Option.isSome_iff_exists.mp (sp_foldl_isSome L none (Or.inl hpos))
  have hspL : smallest_positive L = some m := hsp
  have hmpos : 0 < m := sp_foldl_pos L none (by intro a ha; cases ha) m hsp
  have hmem : m ∈ L := by
    rcases sp_foldl_mem L none m hsp with h | h
    · exact h
    · cases h
  have hmin : ∀ x ∈ L, 0 < x → m ≤ x := sp_foldl_min L none m hsp
  -- `find?` succeeds: some sublist carries exactly the score `m`
  have hex : ∃ sl ∈ Liste, (smallest_positive L == some sl.2) = true := by
    rw [hL] at hmem
    obtain ⟨sl, hsl, hsl2⟩ := List.mem_map.mp hmem
    refine ⟨sl, hsl, ?_⟩
    rw [hspL, hsl2]
    exact beq_self_eq_true _
  obtain ⟨sl₀, hfind⟩ :=
    Option.isSome_iff_exists.mp (List.find?_isSome.mpr hex)
  have hmem₀ : sl₀ ∈ Liste := List.mem_of_find?_eq_some hfind
  have hm₀ : sl₀.2 = m := by
    have hp₀ := List.find?_some hfind
    simp only [hspL, beq_iff_eq, Option.some.injEq] at hp₀
    exact hp₀.symm
  have hne : L.isEmpty = false := by
    cases L with
    | nil => cases hmem
    | cons a as => rfl
  refine ⟨sl₀, ?_, hmem₀, hm₀ ▸ hmpos, fun x hx hxpos => hm₀ ▸ hmin x hx hxpos⟩
  simp only [pick_min_path, hne, Bool.false_eq_true, if_false, hfind]

/-- C4, witness: on scores `[45, -10, 12, 90]` the candidate scoring 12 is
selected. -/
theorem claim_C4_witness :
    pick_min_path exListeC4 [45, -10, 12, 90] = .found (dummyPath 2, 12) ∧
      ∃ sl, pick_min_path exListeC4 [45, -10, 12, 90] = .found sl ∧ sl ∈ exListeC4 ∧
        0 < sl.2 ∧ ∀ x ∈ ([45, -10, 12, 90] : List Int), 0 < x → sl.2 ≤ x :=
  ⟨rfl, claim_C4 exListeC4 [45, -10, 12, 90] (by rfl) (by decide)⟩

/-- `natListLe` is total. -/
theorem natListLe_total : ∀ a b : List Nat, natListLe a b = true ∨ natListLe b a = true := by
  intro a
  induction a with
  | nil => intro b; exact Or.inl rfl
  | cons x xs ih =>
    intro b
    cases b with
    | nil => exact Or.inr rfl
    | cons y ys =>
      by_cases h1 : x < y
      · left; simp [natListLe, h1]
      · by_cases h2 : y < x
        · right; simp [natListLe, h2]
        · rcases ih ys with h | h
          · left; simp [natListLe, h1, h2, h]
          · right; simp [natListLe, h1, h2, h]

/-- `natListLe` is transitive. -/
theorem natListLe_trans :
    ∀ a b c : List Nat, natListLe a b = true → natListLe b c = true → natListLe a c = true := by
  intro a
  induction a with
  | nil => intro b c _ _; rfl
  | cons x xs ih =>
    intro b c hab hbc
    cases b with
    | nil => simp [natListLe] at hab
    | cons y ys =>
      cases c with
      | nil => simp [natListLe] at hbc
      | cons z zs =>
        simp only [natListLe] at hab hbc ⊢
        split_ifs at hab hbc ⊢ <;>
          first
            | rfl
            | exact ih ys zs hab hbc
            | exact Bool.noConfusion hab
            | exact Bool.noConfusion hbc
            | (exfalso; omega)

/-- Decomposition of the Cypher `WHERE` clause. -/
theorem whereClause_iff (name : String) (d : Date) (t : Time) (c : Conn) :
    whereClause name d t c = true ↔
      c.orig = name ∧ (∃ cd, c.datedepart = some cd ∧ dateStrLe d cd = true)
        ∧ (∃ ct, c.hdepart = some ct ∧ timeStrLe t ct = true) := by
  obtain ⟨o, de, dd, ht, da, ha, nt⟩ := c
  cases dd <;> cases ht <;> simp [whereClause, Bool.and_eq_true, beq_iff_eq, and_assoc]

/-- C8 (amended): the record selection of `get_neighbors` returns exactly
the stored connections out of `node_name` whose departure date string and
departure time string are each, on their own, `>=` the given strings, with
any connection missing a departure/arrival date or time excluded; its
order is by the `(datedepart, hdepart)` string keys (day-month-year
lexicographic), not by combined departure instant. -/
theorem claim_C8_amended (store : List Conn) (node_name : String) (d : Date) (t : Time) :
    (∀ c, c ∈ neighbors_query store node_name d t ↔
      c ∈ store ∧ selectedAmended node_name d t c)
      ∧ (neighbors_query store node_name d t).Pairwise connLe := by
  constructor
  · intro c
    unfold neighbors_query
    rw [List.mem_filter, List.mem_insertionSort, List.mem_filter]
    constructor
    · rintro ⟨⟨hmem, hwhere⟩, hfields⟩
      obtain ⟨horig, hcd, hct⟩ := (whereClause_iff node_name d t c).mp hwhere
      simp only [Bool.and_eq_true] at hfields
      obtain ⟨⟨⟨_, _⟩, ha1⟩, ha2⟩ := hfields
      exact ⟨hmem, horig, hcd, hct, ha1, ha2⟩
    · rintro ⟨hmem, horig, hcd, hct, hda, hha⟩
      refine ⟨⟨hmem, (whereClause_iff node_name d t c).mpr ⟨horig, hcd, hct⟩⟩, ?_⟩
      obtain ⟨cd, hcd', _⟩ := hcd
      obtain ⟨ct, hct', _⟩ := hct
      simp only [Bool.and_eq_true]
      exact ⟨⟨⟨by simp [hcd'], by simp [hct']⟩, hda⟩, hha⟩
  · have htot : IsTotal Conn connLe := ⟨fun a b => natListLe_total (connKey a) (connKey b)⟩
    have htrans : IsTrans Conn connLe :=
      ⟨fun a b c => natListLe_trans (connKey a) (connKey b) (connKey c)⟩
    exact List.Pairwise.filter _
      (@List.sorted_insertionSort Conn connLe _ htot htrans
        (store.filter (whereClause node_name d t)))

/-- C3 (amended): one expansion appends a *fresh* label for every yielded
neighbor whose station is not settled — existing frontier labels are never
modified or superseded, because a fresh `Node` object is never identical to
a frontier member, so several live labels for the same station coexist. -/
theorem claim_C3_amended (current : Node) (closed_set : List String)
    (nbs : List (NodeData × Int)) (open_set : List Node) (next_id : Nat)
    (hid : ∀ n ∈ open_set, n.id < next_id) (v : Int)
    (hfin : current.distance = .fin v) :
    nbs.foldl (relaxNeighbor current closed_set) (open_set, next_id)
      = (open_set ++ freshLabels current closed_set next_id nbs,
          next_id + (freshLabels current closed_set next_id nbs).length) := by
  obtain ⟨cid, cdata, cdist, cparent⟩ := current
  have hv : cdist = Distance.fin v := hfin
  subst hv
  induction nbs generalizing open_set next_id with
  | nil => simp [freshLabels]
  | cons nb rest ih =>
    rw [List.foldl_cons]
    by_cases hcl : closed_set.contains nb.1.name
    · have hrelax : relaxNeighbor (Node.mk cid cdata (.fin v) cparent) closed_set
          (open_set, next_id) nb = (open_set, next_id) := by
        unfold relaxNeighbor
        dsimp only
        rw [if_pos hcl]
      have hfl : freshLabels (Node.mk cid cdata (.fin v) cparent) closed_set next_id (nb :: rest)
          = freshLabels (Node.mk cid cdata (.fin v) cparent) closed_set next_id rest := by
        simp only [freshLabels]
        rw [if_pos hcl]
      rw [hfl, hrelax, ih open_set next_id hid]
    · have hrelax : relaxNeighbor (Node.mk cid cdata (.fin v) cparent) closed_set
          (open_set, next_id) nb
          = (open_set ++ [Node.mk next_id nb.1 (Distance.addInt (.fin v) nb.2)
                (some (Node.mk cid cdata (.fin v) cparent))],
             next_id + 1) := by
        unfold relaxNeighbor
        dsimp only
        split_ifs with h1 h2
        · -- the freshly created identity cannot already be in the frontier
          obtain ⟨x, hx, hxid⟩ := List.any_eq_true.mp h2
          have hxeq : x.id = next_id := by
            have h' := hxid
            simp only [beq_iff_eq] at h'
            exact h'
          exact absurd hxeq (Nat.ne_of_lt (hid x hx))
        · rfl
        · exact absurd rfl h1
      have hfl : freshLabels (Node.mk cid cdata (.fin v) cparent) closed_set next_id (nb :: rest)
          = Node.mk next_id nb.1 (Distance.addInt (.fin v) nb.2)
                (some (Node.mk cid cdata (.fin v) cparent))
              :: freshLabels (Node.mk cid cdata (.fin v) cparent) closed_set (next_id + 1) rest := by
        simp only [freshLabels]
        rw [if_neg hcl]
        rfl
      have hid' : ∀ n ∈ open_set ++ [Node.mk next_id nb.1 (Distance.addInt (.fin v) nb.2)
          (some (Node.mk cid cdata (.fin v) cparent))], n.id < next_id + 1 := by
        intro n hn
        rcases List.mem_append.mp hn with h | h
        · exact Nat.lt_succ_of_lt (hid n h)
        · simp only [List.mem_singleton] at h
          subst h
          exact Nat.lt_succ_self _
      rw [hfl, hrelax, ih _ (next_id + 1) hid']
      simp only [List.append_assoc, List.singleton_append, List.length_cons, Prod.mk.injEq]
      constructor
      · first
          | rfl
          | trivial
      · omega

/-- C3 (amended), witness: expanding the start label of `exStoreC3` (two
connections A→B) appends two fresh B labels to the (empty) frontier. -/
theorem claim_C3_amended_witness :
    (∀ n ∈ ([] : List Node), n.id < 1) ∧ Node.distance exNodeA = .fin 0 ∧
      (get_neighbors exStoreC3 "A" ⟨1, 6, 2024⟩ ⟨9, 0⟩).foldl
          (relaxNeighbor exNodeA ["A"]) ([], 1)
        = ([] ++ freshLabels exNodeA ["A"] 1 (get_neighbors exStoreC3 "A" ⟨1, 6, 2024⟩ ⟨9, 0⟩),
            1 + (freshLabels exNodeA ["A"] 1
              (get_neighbors exStoreC3 "A" ⟨1, 6, 2024⟩ ⟨9, 0⟩)).length) :=
  ⟨fun n hn => absurd hn (List.not_mem_nil n), rfl,
    claim_C3_amended exNodeA ["A"] (get_neighbors exStoreC3 "A" ⟨1, 6, 2024⟩ ⟨9, 0⟩) [] 1
      (fun n hn => absurd hn (List.not_mem_nil n)) 0 rfl⟩

/-- Filtering by a weaker predicate keeps at least as many elements. -/
theorem filter_length_mono {α : Type} {p q : α → Bool} :
    ∀ l : List α, (∀ x ∈ l, p x = true → q x = true) →
      (l.filter p).length ≤ (l.filter q).length := by
  intro l
  induction l with
  | nil => intro _; exact Nat.le_refl _
  | cons a as ih =>
    intro h
    have has : ∀ x ∈ as, p x = true → q x = true :=
      fun x hx => h x (List.mem_cons_of_mem a hx)
    by_cases hpa : p a = true
    · have hqa := h a (List.mem_cons_self a as) hpa
      simp only [List.filter_cons, hpa, hqa, if_true, List.length_cons]
      exact Nat.succ_le_succ (ih has)
    · have hpa' : p a = false := by
        revert hpa; cases p a <;> simp
      by_cases hqa : q a = true
      · simp only [List.filter_cons, hpa', hqa, if_true, Bool.false_eq_true, if_false,
          List.length_cons]
        exact Nat.le_succ_of_le (ih has)
      · have hqa' : q a = false := by
          revert hqa; cases q a <;> simp
        simp only [List.filter_cons, hpa', hqa', Bool.false_eq_true, if_false]
        exact ih has

/-- Filtering by a strictly weaker predicate (weaker, and an element of the
list separates them) keeps strictly more elements. -/
theorem filter_length_lt {α : Type} {p q : α → Bool} :
    ∀ (l : List α) (c : α), (∀ x ∈ l, p x = true → q x = true) → c ∈ l →
      q c = true → p c = false → (l.filter p).length < (l.filter q).length := by
  intro l
  induction l with
  | nil => intro c _ hc; cases hc
  | cons a as ih =>
    intro c h hc hq hp
    have has : ∀ x ∈ as, p x = true → q x = true :=
      fun x hx => h x (List.mem_cons_of_mem a hx)
    rcases List.mem_cons.mp hc with rfl | hc'
    · simp only [List.filter_cons, hp, hq, if_true, Bool.false_eq_true, if_false,
        List.length_cons]
      exact Nat.lt_succ_of_le (filter_length_mono as has)
    · by_cases hpa : p a = true
      · have hqa := h a (List.mem_cons_self a as) hpa
        simp only [List.filter_cons, hpa, hqa, if_true, List.length_cons]
        exact Nat.succ_lt_succ (ih c has hc' hq hp)
      · have hpa' : p a = false := by
          revert hpa; cases p a <;> simp
        by_cases hqa : q a = true
        · simp only [List.filter_cons, hpa', hqa, if_true, Bool.false_eq_true, if_false,
            List.length_cons]
          exact Nat.lt_succ_of_lt (ih c has hc' hq hp)
        · have hqa' : q a = false := by
            revert hqa; cases q a <;> simp
          simp only [List.filter_cons, hpa', hqa', Bool.false_eq_true, if_false]
          exact ih c has hc' hq hp

/-- Every pair yielded by `get_neighbors` departs strictly after the passed
instant, and its departure fields come from a stored connection. -/
theorem get_neighbors_mem {store : List Conn} {node_name : String} {d : Date} {t : Time}
    {nb : NodeData × Int} (h : nb ∈ get_neighbors store node_name d t) :
    toMinutes d t < toMinutes nb.1.departure_date nb.1.departure_time ∧
      ∃ c ∈ store, c.datedepart = some nb.1.departure_date
        ∧ c.hdepart = some nb.1.departure_time := by
  unfold get_neighbors at h
  obtain ⟨nd, hnd, hy⟩ := List.mem_filterMap.mp h
  dsimp only at hy
  split_ifs at hy with hlt
  · cases hy
    obtain ⟨c, hc, hrec⟩ := List.mem_filterMap.mp hnd
    have hcs : c ∈ store := by
      unfold neighbors_query at hc
      have h1 := (List.mem_filter.mp hc).1
      rw [List.mem_insertionSort] at h1
      exact (List.mem_filter.mp h1).1
    refine ⟨hlt, c, hcs, ?_⟩
    obtain ⟨o, de, dd, ht, da, ha, nt⟩ := c
    cases dd <;> cases ht <;> cases da <;> cases ha <;>
      simp only [recOf, Option.some.injEq, reduceCtorEq] at hrec
    subst hrec
    exact ⟨rfl, rfl⟩

/-- If a stored connection departs at instant `j > i`, strictly fewer
connections depart after `j` than after `i`. -/
theorem budget_lt {store : List Conn} {i : Nat} {dd : Date} {tt : Time} {c : Conn}
    (hc : c ∈ store) (hcd : c.datedepart = some dd) (hct : c.hdepart = some tt)
    (hij : i < toMinutes dd tt) :
    budget store (toMinutes dd tt) < budget store i := by
  unfold budget
  refine filter_length_lt store c ?_ hc ?_ ?_
  · intro x hx hpx
    obtain ⟨xo, xd, xdd, xht, xda, xha, xnt⟩ := x
    unfold connAfter at hpx ⊢
    cases xdd <;> cases xht <;> simp_all <;> omega
  · unfold connAfter
    rw [hcd, hct]
    simp only [decide_eq_true_eq]
    exact hij
  · unfold connAfter
    rw [hcd, hct]
    simp only [decide_eq_false_iff_not]
    exact Nat.lt_irrefl _

/-- `get_neighbors` yields at most one pair per stored connection. -/
theorem get_neighbors_length_le (store : List Conn) (node_name : String)
    (d : Date) (t : Time) :
    (get_neighbors store node_name d t).length ≤ store.length := by
  unfold get_neighbors neighbors_query
  refine Nat.le_trans (List.length_filterMap_le _ _) ?_
  refine Nat.le_trans (List.length_filterMap_le _ _) ?_
  refine Nat.le_trans (List.length_filter_le _ _) ?_
  rw [List.length_insertionSort]
  exact List.length_filter_le _ _

/-- The running minimum of `pickMin` is one of the candidates. -/
theorem foldl_pickMin_mem : ∀ (xs : List Node) (a : Node), xs.foldl pickMin a ∈ a :: xs := by
  intro xs
  induction xs with
  | nil => intro a; exact List.mem_singleton.mpr rfl
  | cons y ys ih =>
    intro a
    rw [List.foldl_cons]
    have h := ih (pickMin a y)
    have hp : pickMin a y = y ∨ pickMin a y = a := by
      unfold pickMin
      split_ifs
      · exact Or.inl rfl
      · exact Or.inr rfl
    rcases List.mem_cons.mp h with h' | h'
    · rcases hp with hq | hq
      · rw [h', hq]; exact List.mem_cons_of_mem _ (List.mem_cons_self _ _)
      · rw [h', hq]; exact List.mem_cons_self _ _
    · exact List.mem_cons_of_mem _ (List.mem_cons_of_mem _ h')

/-- The selected node is a member of the frontier. -/
theorem selectMin_mem {l : List Node} {x : Node} (h : selectMin l = some x) : x ∈ l := by
  cases l with
  | nil => cases h
  | cons a as =>
    unfold selectMin at h
    cases h
    exact foldl_pickMin_mem as a

/-- `removeNode` deletes exactly the first identity match. -/
theorem removeNode_split :
    ∀ {l : List Node} {x : Node}, x ∈ l → (l.map Node.id).Nodup →
      ∃ l1 l2, l = l1 ++ x :: l2 ∧ removeNode x l = l1 ++ l2 := by
  intro l
  induction l with
  | nil => intro x hx; cases hx
  | cons a as ih =>
    intro x hx hnd
    rw [List.map_cons, List.nodup_cons] at hnd
    by_cases hid : a.id = x.id
    · have hax : a = x := by
        rcases List.mem_cons.mp hx with rfl | hx'
        · rfl
        · exact absurd (hid ▸ List.mem_map_of_mem Node.id hx') hnd.1
      subst hax
      refine ⟨[], as, rfl, ?_⟩
      unfold removeNode
      rw [if_pos rfl]
      rfl
    · have hx' : x ∈ as := by
        rcases List.mem_cons.mp hx with rfl | hx'
        · exact absurd rfl hid
        · exact hx'
      obtain ⟨l1, l2, heq, hrem⟩ := ih hx' hnd.2
      refine ⟨a :: l1, l2, by rw [heq]; rfl, ?_⟩
      unfold removeNode
      rw [if_neg hid, hrem]
      rfl

/-- `removeNode` yields a sublist. -/
theorem removeNode_sublist (x : Node) :
    ∀ l : List Node, List.Sublist (removeNode x l) l := by
  intro l
  induction l with
  | nil => exact List.Sublist.refl _
  | cons a as ih =>
    unfold removeNode
    split_ifs
    · exact List.sublist_cons_self a as
    · exact List.Sublist.cons₂ a ih

/-- The measure distributes over concatenation. -/
theorem measureOf_append (store : List Conn) (l1 l2 : List Node) :
    measureOf store (l1 ++ l2) = measureOf store l1 + measureOf store l2 := by
  unfold measureOf
  rw [List.map_append, List.sum_append]

/-- The measure is invariant under weight-preserving maps. -/
theorem measureOf_map (store : List Conn) (f : Node → Node) (l : List Node)
    (hf : ∀ n, nodeWeight store (f n) = nodeWeight store n) :
    measureOf store (l.map f) = measureOf store l := by
  unfold measureOf
  rw [List.map_map]
  congr 1
  exact List.map_congr_left (fun a _ => hf a)

/-- One relaxation step adds at most `W` to the frontier measure, provided
`W` bounds the weight a label for this neighbor would get. -/
theorem relax_measure_le (store : List Conn) (current : Node) (closed_set : List String)
    (acc : List Node × Nat) (nb : NodeData × Int) (W : Nat)
    (hW : (store.length + 1)
        ^ (budget store (toMinutes nb.1.departure_date nb.1.departure_time) + 1) ≤ W) :
    measureOf store (relaxNeighbor current closed_set acc nb).1
      ≤ measureOf store acc.1 + W := by
  unfold relaxNeighbor
  dsimp only
  split_ifs with h1 h2 h3
  · exact Nat.le_add_right _ _
  · exact Nat.le_add_right _ _
  · rw [measureOf_append]
    refine Nat.add_le_add_left ?_ _
    have hw : measureOf store
        [Node.mk acc.2 nb.1 (current.distance.addInt nb.2) (some current)]
        = nodeWeight store (Node.mk acc.2 nb.1 (current.distance.addInt nb.2) (some current)) := by
      unfold measureOf
      simp
    rw [hw]
    exact hW
  · rw [measureOf_map]
    · exact Nat.le_add_right _ _
    · intro n
      dsimp only
      split_ifs <;> rfl

/-- Folding the relaxation over the yielded neighbors adds at most
`length · W` to the frontier measure. -/
theorem foldl_relax_measure (store : List Conn) (current : Node) (closed_set : List String) :
    ∀ (nbs : List (NodeData × Int)) (acc : List Node × Nat) (W : Nat),
      (∀ nb ∈ nbs, (store.length + 1)
          ^ (budget store (toMinutes nb.1.departure_date nb.1.departure_time) + 1) ≤ W) →
      measureOf store (nbs.foldl (relaxNeighbor current closed_set) acc).1
        ≤ measureOf store acc.1 + nbs.length * W := by
  intro nbs
  induction nbs with
  | nil => intro acc W _; simp
  | cons nb rest ih =>
    intro acc W hW
    rw [List.foldl_cons, List.length_cons, Nat.succ_mul]
    have h1 := relax_measure_le store current closed_set acc nb W
      (hW nb (List.mem_cons_self nb rest))
    have h2 := ih (relaxNeighbor current closed_set acc nb) W
      (fun b hb => hW b (List.mem_cons_of_mem nb hb))
    omega

/-- One relaxation step preserves the identity invariant. -/
theorem relax_idsOk (current : Node) (closed_set : List String)
    (acc : List Node × Nat) (nb : NodeData × Int) (h : IdsOk acc.1 acc.2) :
    IdsOk (relaxNeighbor current closed_set acc nb).1
      (relaxNeighbor current closed_set acc nb).2 := by
  obtain ⟨hnd, hlt⟩ := h
  unfold relaxNeighbor
  dsimp only
  split_ifs with h1 h2 h3
  · exact ⟨hnd, hlt⟩
  · exact ⟨hnd, fun n hn => Nat.lt_succ_of_lt (hlt n hn)⟩
  · constructor
    · rw [List.map_append]
      refine List.Nodup.append hnd (List.nodup_singleton _) ?_
      intro x hx1 hx2
      obtain ⟨n, hn, rfl⟩ := List.mem_map.mp hx1
      simp only [List.map_cons, List.map_nil, List.mem_singleton] at hx2
      exact absurd hx2 (Nat.ne_of_lt (hlt n hn))
    · intro n hn
      rcases List.mem_append.mp hn with h | h
      · exact Nat.lt_succ_of_lt (hlt n h)
      · simp only [List.mem_singleton] at h
        subst h
        exact Nat.lt_succ_self _
  · constructor
    · rw [List.map_map]
      have heq : acc.1.map (Node.id ∘ fun x =>
          if (x.id == (Node.mk acc.2 nb.1 Distance.inf none).id
              && (current.distance.addInt nb.2).blt x.distance) = true then
            Node.mk x.id x.data (current.distance.addInt nb.2) (some current)
          else x) = acc.1.map Node.id := by
        refine List.map_congr_left (fun a _ => ?_)
        simp only [Function.comp]
        split_ifs <;> rfl
      rw [heq]
      exact hnd
    · intro n hn
      obtain ⟨x, hx, rfl⟩ := List.mem_map.mp hn
      have hxlt := hlt x hx
      dsimp only
      split_ifs
      · exact Nat.lt_succ_of_lt hxlt
      · exact Nat.lt_succ_of_lt hxlt

/-- The relaxation fold preserves the identity invariant. -/
theorem foldl_relax_idsOk (current : Node) (closed_set : List String) :
    ∀ (nbs : List (NodeData × Int)) (acc : List Node × Nat), IdsOk acc.1 acc.2 →
      IdsOk (nbs.foldl (relaxNeighbor current closed_set) acc).1
        (nbs.foldl (relaxNeighbor current closed_set) acc).2 := by
  intro nbs
  induction nbs with
  | nil => intro acc h; exact h
  | cons nb rest ih =>
    intro acc h
    rw [List.foldl_cons]
    exact ih _ (relax_idsOk current closed_set acc nb h)

/-- A non-final iteration strictly decreases the frontier measure and
preserves the identity invariant. -/
theorem dijkstraStep_next {store : List Conn} {goal_node_name : String} {s s' : SearchState}
    (hids : IdsOk s.open_set s.next_id)
    (h : dijkstraStep store goal_node_name s = .next s') :
    measureOf store s'.open_set < measureOf store s.open_set
      ∧ IdsOk s'.open_set s'.next_id := by
  unfold dijkstraStep at h
  cases hsel : selectMin s.open_set with
  | none => rw [hsel] at h; cases h
  | some cur =>
    rw [hsel] at h
    dsimp only at h
    -- `split_ifs` closes the goal-found branch (`halt ... = next s'`) itself
    split_ifs at h with hgoal
    cases h
    have hcur : cur ∈ s.open_set := selectMin_mem hsel
    obtain ⟨l1, l2, heq, hrem⟩ := removeNode_split hcur hids.1
    have hms : measureOf store s.open_set
        = measureOf store (removeNode cur s.open_set) + nodeWeight store cur := by
      rw [hrem, heq, measureOf_append, measureOf_append]
      have hcons : measureOf store (cur :: l2)
          = nodeWeight store cur + measureOf store l2 := by
        unfold measureOf
        rw [List.map_cons, List.sum_cons]
      rw [hcons]
      omega
    have hW : ∀ nb ∈ get_neighbors store cur.name cur.departure_date cur.departure_time,
        (store.length + 1)
            ^ (budget store (toMinutes nb.1.departure_date nb.1.departure_time) + 1)
          ≤ (store.length + 1) ^ budget store cur.instant := by
      intro nb hnb
      obtain ⟨hlt', c, hc, hcd, hct⟩ := get_neighbors_mem hnb
      have hb : budget store (toMinutes nb.1.departure_date nb.1.departure_time)
          < budget store cur.instant := budget_lt hc hcd hct hlt'
      exact Nat.pow_le_pow_right (Nat.succ_pos _) hb
    have hfold := foldl_relax_measure store cur (cur.name :: s.closed_set)
      (get_neighbors store cur.name cur.departure_date cur.departure_time)
      (removeNode cur s.open_set, s.next_id)
      ((store.length + 1) ^ budget store cur.instant) hW
    dsimp only at hfold
    have hlen : (get_neighbors store cur.name cur.departure_date cur.departure_time).length
        ≤ store.length :=
      get_neighbors_length_le store cur.name cur.departure_date cur.departure_time
    have hwcur : nodeWeight store cur
        = (store.length + 1) ^ budget store cur.instant * (store.length + 1) := by
      unfold nodeWeight
      rw [Nat.pow_succ]
    have hWpos : 0 < (store.length + 1) ^ budget store cur.instant :=
      Nat.pow_pos (Nat.succ_pos _)
    have hmul : (get_neighbors store cur.name cur.departure_date cur.departure_time).length
          * ((store.length + 1) ^ budget store cur.instant)
        ≤ store.length * ((store.length + 1) ^ budget store cur.instant) :=
      Nat.mul_le_mul_right _ hlen
    have hlt2 : store.length * ((store.length + 1) ^ budget store cur.instant)
        < (store.length + 1) ^ budget store cur.instant * (store.length + 1) := by
      rw [Nat.mul_comm]
      exact mul_lt_mul_of_pos_left (Nat.lt_succ_self _) hWpos
    constructor
    · dsimp only
      omega
    · have hidrem : IdsOk (removeNode cur s.open_set) s.next_id := by
        constructor
        · exact List.Nodup.sublist
            (List.Sublist.map Node.id (removeNode_sublist cur s.open_set)) hids.1
        · intro n hn
          exact hids.2 n ((removeNode_sublist cur s.open_set).subset hn)
      exact foldl_relax_idsOk cur (cur.name :: s.closed_set)
        (get_neighbors store cur.name cur.departure_date cur.departure_time)
        (removeNode cur s.open_set, s.next_id) hidrem

/-- With fuel exceeding the frontier measure, the loop reaches a definitive
answer. -/
theorem dijkstraLoop_isSome (store : List Conn) (goal_node_name : String) :
    ∀ (fuel : Nat) (s : SearchState), IdsOk s.open_set s.next_id →
      measureOf store s.open_set < fuel →
      (dijkstraLoop store goal_node_name fuel s).isSome = true := by
  intro fuel
  induction fuel with
  | zero => intro s _ hm; exact absurd hm (Nat.not_lt_zero _)
  | succ n ih =>
    intro s hids hm
    unfold dijkstraLoop
    cases hstep : dijkstraStep store goal_node_name s with
    | halt r => rfl
    | next s' =>
      obtain ⟨hdec, hids'⟩ := dijkstraStep_next hids hstep
      exact ih s' hids' (by omega)

/-- C10: for every finite timetable store and every query, some fuel makes
`dijkstra` return a definitive answer (a path or "no path"), i.e. the
Python loop terminates: every yielded neighbor departs strictly later than
the expanding label's instant, so each new label strictly shrinks its
count of usable stored connections, and the weighted frontier measure
strictly decreases each iteration. -/
theorem claim_C10 (store : List Conn) (start_node_name goal_node_name : String)
    (departure_date : Date) (departure_time : Time)
    (arrival_date : Date) (arrival_time : Time) :
    ∃ fuel, (dijkstra fuel store start_node_name goal_node_name
      departure_date departure_time arrival_date arrival_time).isSome = true := by
  refine ⟨measureOf store (dijkstraInit start_node_name departure_date departure_time
    arrival_date arrival_time).open_set + 1, ?_⟩
  unfold dijkstra
  apply dijkstraLoop_isSome
  · constructor
    · exact List.nodup_singleton _
    · intro n hn
      simp only [dijkstraInit, List.mem_singleton] at hn
      subst hn
      exact Nat.lt_succ_self 0
  · exact Nat.lt_succ_self _
